import Mathlib

/-!
# LEB128 codec of `dalvik/libdex/Leb128.h`

A shallow embedding of the inline functions of `Leb128.h`
(`readUnsignedLeb128`, `readSignedLeb128`, `writeUnsignedLeb128`,
`unsignedLeb128Size`) together with theorems about them.

Modelling conventions:

* memory is byte addressed, `Mem = Nat → u1`; a pointer is an address (`Nat`)
  and `ptr++` is `ptr + 1`;
* a C `int` is an `Int` in `[-2^31, 2^31)`; the bit operations `&`, `|`, `<<`
  act on its 32-bit two's-complement pattern (`<<` wraps modulo `2^32`), and
  `>>` on an `int` is the arithmetic shift;
* a `u4` is a `Nat` below `2^32`.
-/

namespace Leb128

/-! ## Machine words -/

/-- An unsigned byte (`u1` of `DexFile.h`). -/
abbrev u1 := Fin 256

/-- Byte-addressed memory. -/
abbrev Mem := Nat → u1

/-- The 32-bit two's-complement pattern of an `int` (the cast `(u4) x`). -/
def toU32 (x : Int) : Nat := (x % 2 ^ 32).toNat

/-- The `int` whose two's-complement pattern is the low 32 bits of `n`
(the cast `(int) n`). -/
def toInt32 (n : Nat) : Int :=
  if n % 2 ^ 32 < 2 ^ 31 then ((n % 2 ^ 32 : Nat) : Int)
  else ((n % 2 ^ 32 : Nat) : Int) - 2 ^ 32

/-- Bitwise `x & y` on `int`. -/
def and32 (x y : Int) : Int := toInt32 (toU32 x &&& toU32 y)

/-- Bitwise `x | y` on `int`. -/
def or32 (x y : Int) : Int := toInt32 (toU32 x ||| toU32 y)

/-- Left shift `x << k` on `int`: the pattern is shifted and its low 32 bits
are kept (the two's-complement wrap-around of the compiled code, which is what
the fifth-byte step `cur << 28` relies on). -/
def shl32 (x : Int) (k : Nat) : Int := toInt32 (toU32 x <<< k)

/-- Arithmetic right shift `x >> k` on `int`. -/
def sar32 (x : Int) (k : Nat) : Int := x >>> k

/-- The store `*ptr = b`. -/
def store (mem : Mem) (ptr : Nat) (b : u1) : Mem :=
  fun a => if a = ptr then b else mem a

/-- Truncation of a value to `u1` (the implicit conversion on assignment). -/
def toU1 (n : Nat) : u1 := ⟨n % 256, Nat.mod_lt n (by decide)⟩

/-! ## The decoders -/

/-- Embedding of `readUnsignedLeb128(const u1** pStream)`: takes the memory and
the value of `*pStream`, returns the `int` result and the new `*pStream`. -/
def readUnsignedLeb128 (mem : Mem) (pStream : Nat) : Int × Nat :=
  let ptr := pStream
  let result : Int := ((mem ptr).val : Int)
  let ptr := ptr + 1
  if result > 0x7f then
    let cur : Int := ((mem ptr).val : Int)
    let ptr := ptr + 1
    let result := or32 (and32 result 0x7f) (shl32 (and32 cur 0x7f) 7)
    if cur > 0x7f then
      let cur : Int := ((mem ptr).val : Int)
      let ptr := ptr + 1
      let result := or32 result (shl32 (and32 cur 0x7f) 14)
      if cur > 0x7f then
        let cur : Int := ((mem ptr).val : Int)
        let ptr := ptr + 1
        let result := or32 result (shl32 (and32 cur 0x7f) 21)
        if cur > 0x7f then
          let cur : Int := ((mem ptr).val : Int)
          let ptr := ptr + 1
          let result := or32 result (shl32 cur 28)
          (result, ptr)
        else (result, ptr)
      else (result, ptr)
    else (result, ptr)
  else (result, ptr)

/-- Embedding of `readSignedLeb128(const u1** pStream)`: takes the memory and
the value of `*pStream`, returns the `int` result and the new `*pStream`. -/
def readSignedLeb128 (mem : Mem) (pStream : Nat) : Int × Nat :=
  let ptr := pStream
  let result : Int := ((mem ptr).val : Int)
  let ptr := ptr + 1
  if result ≤ 0x7f then
    let result := sar32 (shl32 result 25) 25
    (result, ptr)
  else
    let cur : Int := ((mem ptr).val : Int)
    let ptr := ptr + 1
    let result := or32 (and32 result 0x7f) (shl32 (and32 cur 0x7f) 7)
    if cur ≤ 0x7f then
      let result := sar32 (shl32 result 18) 18
      (result, ptr)
    else
      let cur : Int := ((mem ptr).val : Int)
      let ptr := ptr + 1
      let result := or32 result (shl32 (and32 cur 0x7f) 14)
      if cur ≤ 0x7f then
        let result := sar32 (shl32 result 11) 11
        (result, ptr)
      else
        let cur : Int := ((mem ptr).val : Int)
        let ptr := ptr + 1
        let result := or32 result (shl32 (and32 cur 0x7f) 21)
        if cur ≤ 0x7f then
          let result := sar32 (shl32 result 4) 4
          (result, ptr)
        else
          let cur : Int := ((mem ptr).val : Int)
          let ptr := ptr + 1
          let result := or32 result (shl32 cur 28)
          (result, ptr)

/-! ## The encoder -/

/-- Embedding of `writeUnsignedLeb128(u1* ptr, u4 data)`: the `while (true)`
loop is the recursion; returns the memory after the stores and the updated
pointer. -/
def writeUnsignedLeb128 (mem : Mem) (ptr : Nat) (data : Nat) : Mem × Nat :=
  let out : u1 := toU1 (data &&& 0x7f)
  if out.val ≠ data then
    writeUnsignedLeb128 (store mem ptr (toU1 (out.val ||| 0x80))) (ptr + 1) (data >>> 7)
  else
    (store mem ptr out, ptr + 1)
termination_by data
decreasing_by
  rename_i h
  have h1 : (toU1 (data &&& 0x7f)).val = data % 128 := by
    show (data &&& 127) % 256 = data % 128
    have := Nat.and_pow_two_sub_one_eq_mod data 7
    norm_num at this
    omega
  rw [h1] at h
  rw [Nat.shiftRight_eq_div_pow]
  omega

/-- The `do ... while (data != 0)` loop of `unsignedLeb128Size`: one pass of
the body (`data >>= 7; count++`) followed by the loop test. -/
def unsignedLeb128SizeLoop (data : Nat) (count : Nat) : Nat :=
  if data >>> 7 ≠ 0 then unsignedLeb128SizeLoop (data >>> 7) (count + 1)
  else count + 1
termination_by data
decreasing_by
  rename_i h
  rw [Nat.shiftRight_eq_div_pow] at h ⊢
  omega

/-- Embedding of `unsignedLeb128Size(u4 data)`. -/
def unsignedLeb128Size (data : Nat) : Nat :=
  unsignedLeb128SizeLoop data 0

/-- One pass through the body of the `while (true)` loop of
`writeUnsignedLeb128` on the state `(mem, ptr, data)`: the state after the
pass, and `true` when the loop goes round again (`false` at the `break`). -/
def writeLoopBody (mem : Mem) (ptr : Nat) (data : Nat) : (Mem × Nat × Nat) × Bool :=
  let out : u1 := toU1 (data &&& 0x7f)
  if out.val ≠ data then
    ((store mem ptr (toU1 (out.val ||| 0x80)), ptr + 1, data >>> 7), true)
  else
    ((store mem ptr out, ptr + 1, data), false)

/-- The `while (true)` loop of `writeUnsignedLeb128` run for at most `fuel`
passes: `some (mem, ptr, passes)` when the loop reached its `break` after
`passes` passes, `none` when the fuel ran out first. -/
def writeLoopRun : Nat → Mem → Nat → Nat → Option (Mem × Nat × Nat)
  | 0, _, _, _ => none
  | fuel + 1, mem, ptr, data =>
    match writeLoopBody mem ptr data with
    | (s, false) => some (s.1, s.2.1, 1)
    | (s, true) =>
      match writeLoopRun fuel s.1 s.2.1 s.2.2 with
      | some r => some (r.1, r.2.1, r.2.2 + 1)
      | none => none

/-! ## The checked decoder -/

/-- Modelled from the spec: the body of `readAndVerifyUnsignedLeb128` is
missing (`Leb128.h` only declares it). As `readUnsignedLeb128`, but before any
byte is read its address must be strictly below the exclusive `limit` when one
is given (`none` stands for `NULL`), the read stopping at once with
`okay = false` otherwise; and when exactly five bytes are consumed the read is
valid only if the fifth byte has none of its high four bits (`& 0xF0`) set.
Returns the value, the new cursor and `okay`. -/
def readAndVerifyUnsignedLeb128 (mem : Mem) (pStream : Nat) (limit : Option Nat) :
    Int × Nat × Bool :=
  let readable (a : Nat) : Bool :=
    match limit with
    | none => true
    | some l => decide (a < l)
  let ptr := pStream
  if !readable ptr then (0, ptr, false) else
  let result : Int := ((mem ptr).val : Int)
  let ptr := ptr + 1
  if result > 0x7f then
    if !readable ptr then (result, ptr, false) else
    let cur : Int := ((mem ptr).val : Int)
    let ptr := ptr + 1
    let result := or32 (and32 result 0x7f) (shl32 (and32 cur 0x7f) 7)
    if cur > 0x7f then
      if !readable ptr then (result, ptr, false) else
      let cur : Int := ((mem ptr).val : Int)
      let ptr := ptr + 1
      let result := or32 result (shl32 (and32 cur 0x7f) 14)
      if cur > 0x7f then
        if !readable ptr then (result, ptr, false) else
        let cur : Int := ((mem ptr).val : Int)
        let ptr := ptr + 1
        let result := or32 result (shl32 (and32 cur 0x7f) 21)
        if cur > 0x7f then
          if !readable ptr then (result, ptr, false) else
          let cur : Int := ((mem ptr).val : Int)
          let ptr := ptr + 1
          let result := or32 result (shl32 cur 28)
          (result, ptr, decide (toU32 cur &&& 0xF0 = 0))
        else (result, ptr, true)
      else (result, ptr, true)
    else (result, ptr, true)
  else (result, ptr, true)

/-! ## Specification-side definitions

The definitions below do not come from the source: they state, in the words of
the specification, what the functions above are claimed to compute. -/

/-- The byte at offset `i` from the cursor, as a number. -/
def byteAt (mem : Mem) (p i : Nat) : Nat := (mem (p + i)).val

/-- The bitwise OR over `i = 0 .. n-1` of `(b_i & 0x7F) << 7*i`: the value
assembled from the low seven bits of the first `n` bytes, least significant
group first. -/
def orGroups (b : Nat → Nat) (n : Nat) : Nat :=
  (List.range n).foldl (fun acc i => acc ||| ((b i &&& 0x7F) <<< (7 * i))) 0

/-- The 32-bit word the unsigned decoder is specified to return when it
consumes `n` bytes: the OR of the groups for `n ≤ 4`, and for `n = 5` the OR
of the first four groups with `b_4 << 28` truncated to 32 bits. -/
def decodedWord (b : Nat → Nat) (n : Nat) : Nat :=
  if n ≤ 4 then orGroups b n else orGroups b 4 ||| ((b 4 <<< 28) % 2 ^ 32)

/-- The value of a `bits`-bit field `r` sign-extended from its top bit
`bits - 1`. -/
def signExtend (bits : Nat) (r : Nat) : Int :=
  if r < 2 ^ (bits - 1) then (r : Int) else (r : Int) - 2 ^ bits

/-- The 1-based position of the first byte among the first four whose high
bit (`0x80`) is clear, or 5 if all of the first four bytes have it set. -/
def consumedCount (b : Nat → Nat) : Nat :=
  if b 0 &&& 0x80 = 0 then 1
  else if b 1 &&& 0x80 = 0 then 2
  else if b 2 &&& 0x80 = 0 then 3
  else if b 3 &&& 0x80 = 0 then 4
  else 5

/-- The byte the encoder emits at offset `i` of an `n`-byte encoding of `v`:
the `i`-th 7-bit group, with the continuation bit on all but the last. -/
def encodedByte (v n i : Nat) : Nat :=
  if i + 1 = n then v / 2 ^ (7 * i) else v / 2 ^ (7 * i) % 128 + 128

/-! ## Machine-word lemmas -/

theorem toU32_natCast (n : Nat) : toU32 (n : Int) = n % 2 ^ 32 := by
  unfold toU32
  omega

theorem toU32_lt (x : Int) : toU32 x < 2 ^ 32 := by
  unfold toU32
  omega

theorem toU32_toInt32 (n : Nat) : toU32 (toInt32 n) = n % 2 ^ 32 := by
  unfold toU32 toInt32
  split <;> omega

theorem toInt32_of_lt {n : Nat} (h : n < 2 ^ 31) : toInt32 n = (n : Int) := by
  unfold toInt32
  split <;> omega

theorem toInt32_toU32 {x : Int} (h1 : -2 ^ 31 ≤ x) (h2 : x < 2 ^ 31) :
    toInt32 (toU32 x) = x := by
  unfold toU32 toInt32
  split <;> omega

theorem toInt32_range (n : Nat) : -2 ^ 31 ≤ toInt32 n ∧ toInt32 n < 2 ^ 31 := by
  unfold toInt32
  split <;> omega

/-- OR with a value shifted past the bits of the left operand is addition. -/
theorem lor_mul_pow_eq_add {a k : Nat} (g : Nat) (h : a < 2 ^ k) :
    a ||| g * 2 ^ k = a + g * 2 ^ k := by
  rw [Nat.lor_comm, Nat.mul_comm g, ← Nat.mul_add_lt_is_or h]
  omega

theorem and_0x7f (n : Nat) : n &&& 0x7f = n % 128 := by
  have := Nat.and_pow_two_sub_one_eq_mod n 7
  norm_num at this
  exact this

/-- The first masking step `result & 0x7f` on a byte. -/
theorem and32_byte (c : Nat) :
    and32 (c : Int) 0x7f = ((c % 128 : Nat) : Int) := by
  unfold and32
  have h7 : toU32 0x7f = 0x7f := by unfold toU32; omega
  rw [toU32_natCast, h7, and_0x7f, toInt32_of_lt (by omega)]
  congr 1
  omega

/-- One accumulation step `result | ((cur & 0x7f) << k)` for `k = 7, 14, 21`. -/
theorem or32_group (a c k : Nat) (ha : a < 2 ^ k) (hk : k ≤ 21) :
    or32 (a : Int) (shl32 (and32 (c : Int) 0x7f) k)
      = ((a + c % 128 * 2 ^ k : Nat) : Int) := by
  have hk21 : (2 : Nat) ^ k ≤ 2 ^ 21 := Nat.pow_le_pow_right (by decide) hk
  have hg : c % 128 * 2 ^ k < 2 ^ 28 := by
    have : c % 128 < 128 := Nat.mod_lt _ (by decide)
    calc c % 128 * 2 ^ k ≤ 127 * 2 ^ k := Nat.mul_le_mul_right _ (by omega)
      _ ≤ 127 * 2 ^ 21 := Nat.mul_le_mul_left _ hk21
      _ < 2 ^ 28 := by norm_num
  have ha21 : a < 2 ^ 21 := lt_of_lt_of_le ha hk21
  rw [and32_byte c]
  unfold or32 shl32
  rw [toU32_natCast, toU32_natCast, toU32_toInt32, Nat.shiftLeft_eq]
  have e1 : a % 2 ^ 32 = a := Nat.mod_eq_of_lt (by omega)
  have e2 : c % 128 % 2 ^ 32 = c % 128 := Nat.mod_eq_of_lt (by omega)
  have e3 : c % 128 * 2 ^ k % 2 ^ 32 = c % 128 * 2 ^ k := Nat.mod_eq_of_lt (by omega)
  rw [e1, e2, e3, lor_mul_pow_eq_add _ ha]
  have hlt : a + c % 128 * 2 ^ k < 2 ^ 31 := by omega
  exact toInt32_of_lt hlt

/-- The fifth-byte step `result | (cur << 28)`: only the low four bits of
`cur` survive the 32-bit truncation. -/
theorem or32_fifth (a c : Nat) (ha : a < 2 ^ 28) :
    or32 (a : Int) (shl32 (c : Int) 28) = toInt32 (a + c % 16 * 2 ^ 28) := by
  unfold or32 shl32
  rw [toU32_natCast, toU32_natCast, toU32_toInt32, Nat.shiftLeft_eq]
  have e1 : a % 2 ^ 32 = a := Nat.mod_eq_of_lt (by omega)
  have e2 : c % 2 ^ 32 * 2 ^ 28 % 2 ^ 32 = c % 16 * 2 ^ 28 := by omega
  rw [e1, e2, lor_mul_pow_eq_add _ ha]

/-! ## Closed forms of the decoders -/

theorem byteAt_lt (mem : Mem) (p i : Nat) : byteAt mem p i < 256 := (mem (p + i)).isLt

/-- Arithmetic closed form of `readUnsignedLeb128`. -/
theorem readUnsignedLeb128_eq (mem : Mem) (p : Nat) :
    readUnsignedLeb128 mem p =
      if byteAt mem p 0 < 128 then (((byteAt mem p 0 : Nat) : Int), p + 1)
      else if byteAt mem p 1 < 128 then
        (((byteAt mem p 0 % 128 + byteAt mem p 1 * 2 ^ 7 : Nat) : Int), p + 2)
      else if byteAt mem p 2 < 128 then
        (((byteAt mem p 0 % 128 + byteAt mem p 1 % 128 * 2 ^ 7
            + byteAt mem p 2 * 2 ^ 14 : Nat) : Int), p + 3)
      else if byteAt mem p 3 < 128 then
        (((byteAt mem p 0 % 128 + byteAt mem p 1 % 128 * 2 ^ 7
            + byteAt mem p 2 % 128 * 2 ^ 14 + byteAt mem p 3 * 2 ^ 21 : Nat) : Int), p + 4)
      else
        (toInt32 (byteAt mem p 0 % 128 + byteAt mem p 1 % 128 * 2 ^ 7
            + byteAt mem p 2 % 128 * 2 ^ 14 + byteAt mem p 3 % 128 * 2 ^ 21
            + byteAt mem p 4 % 16 * 2 ^ 28), p + 5) := by
  have hb0 := byteAt_lt mem p 0
  have hb1 := byteAt_lt mem p 1
  have hb2 := byteAt_lt mem p 2
  have hb3 := byteAt_lt mem p 3
  have hb4 := byteAt_lt mem p 4
  have hp2 : p + 1 + 1 = p + 2 := rfl
  have hp3 : p + 2 + 1 = p + 3 := rfl
  have hp4 : p + 3 + 1 = p + 4 := rfl
  have hp5 : p + 4 + 1 = p + 5 := rfl
  unfold readUnsignedLeb128
  simp only [byteAt, Nat.add_zero, hp2, hp3, hp4, hp5] at *
  by_cases h0 : (mem p).val < 128
  · rw [if_neg (by omega), if_pos h0]
  · rw [if_pos (by omega), if_neg h0, and32_byte,
      or32_group _ _ 7 (by omega) (by omega)]
    by_cases h1 : (mem (p + 1)).val < 128
    · rw [if_neg (by omega), if_pos h1]
      have : (mem (p + 1)).val % 128 = (mem (p + 1)).val := Nat.mod_eq_of_lt h1
      rw [this]
    · rw [if_pos (by omega), if_neg h1, or32_group _ _ 14 (by omega) (by omega)]
      by_cases h2 : (mem (p + 2)).val < 128
      · rw [if_neg (by omega), if_pos h2]
        have : (mem (p + 2)).val % 128 = (mem (p + 2)).val := Nat.mod_eq_of_lt h2
        rw [this]
      · rw [if_pos (by omega), if_neg h2, or32_group _ _ 21 (by omega) (by omega)]
        by_cases h3 : (mem (p + 3)).val < 128
        · rw [if_neg (by omega), if_pos h3]
          have : (mem (p + 3)).val % 128 = (mem (p + 3)).val := Nat.mod_eq_of_lt h3
          rw [this]
        · rw [if_pos (by omega), if_neg h3, or32_fifth _ _ (by omega)]

/-- Closed form of `readSignedLeb128`: the same groups as the unsigned decoder,
followed by the shift pair on the paths that read fewer than five bytes. -/
theorem readSignedLeb128_eq (mem : Mem) (p : Nat) :
    readSignedLeb128 mem p =
      if byteAt mem p 0 < 128 then
        (sar32 (shl32 ((byteAt mem p 0 : Nat) : Int) 25) 25, p + 1)
      else if byteAt mem p 1 < 128 then
        (sar32 (shl32 ((byteAt mem p 0 % 128 + byteAt mem p 1 * 2 ^ 7 : Nat) : Int) 18) 18,
          p + 2)
      else if byteAt mem p 2 < 128 then
        (sar32 (shl32 ((byteAt mem p 0 % 128 + byteAt mem p 1 % 128 * 2 ^ 7
            + byteAt mem p 2 * 2 ^ 14 : Nat) : Int) 11) 11, p + 3)
      else if byteAt mem p 3 < 128 then
        (sar32 (shl32 ((byteAt mem p 0 % 128 + byteAt mem p 1 % 128 * 2 ^ 7
            + byteAt mem p 2 % 128 * 2 ^ 14 + byteAt mem p 3 * 2 ^ 21 : Nat) : Int) 4) 4,
          p + 4)
      else
        (toInt32 (byteAt mem p 0 % 128 + byteAt mem p 1 % 128 * 2 ^ 7
            + byteAt mem p 2 % 128 * 2 ^ 14 + byteAt mem p 3 % 128 * 2 ^ 21
            + byteAt mem p 4 % 16 * 2 ^ 28), p + 5) := by
  have hb0 := byteAt_lt mem p 0
  have hb1 := byteAt_lt mem p 1
  have hb2 := byteAt_lt mem p 2
  have hb3 := byteAt_lt mem p 3
  have hb4 := byteAt_lt mem p 4
  have hp2 : p + 1 + 1 = p + 2 := rfl
  have hp3 : p + 2 + 1 = p + 3 := rfl
  have hp4 : p + 3 + 1 = p + 4 := rfl
  have hp5 : p + 4 + 1 = p + 5 := rfl
  unfold readSignedLeb128
  simp only [byteAt, Nat.add_zero, hp2, hp3, hp4, hp5] at *
  by_cases h0 : (mem p).val < 128
  · rw [if_pos (by omega), if_pos h0]
  · rw [if_neg (by omega), if_neg h0, and32_byte,
      or32_group _ _ 7 (by omega) (by omega)]
    by_cases h1 : (mem (p + 1)).val < 128
    · rw [if_pos (by omega), if_pos h1]
      have : (mem (p + 1)).val % 128 = (mem (p + 1)).val := Nat.mod_eq_of_lt h1
      rw [this]
    · rw [if_neg (by omega), if_neg h1, or32_group _ _ 14 (by omega) (by omega)]
      by_cases h2 : (mem (p + 2)).val < 128
      · rw [if_pos (by omega), if_pos h2]
        have : (mem (p + 2)).val % 128 = (mem (p + 2)).val := Nat.mod_eq_of_lt h2
        rw [this]
      · rw [if_neg (by omega), if_neg h2, or32_group _ _ 21 (by omega) (by omega)]
        by_cases h3 : (mem (p + 3)).val < 128
        · rw [if_pos (by omega), if_pos h3]
          have : (mem (p + 3)).val % 128 = (mem (p + 3)).val := Nat.mod_eq_of_lt h3
          rw [this]
        · rw [if_neg (by omega), if_neg h3, or32_fifth _ _ (by omega)]

/-- The shift pair `(r << k) >> k` of the signed decoder sign-extends the
`32 - k`-bit field `r`. -/
theorem sar32_shl32 (r k : Nat) (hk : k = 25 ∨ k = 18 ∨ k = 11 ∨ k = 4)
    (hr : r < 2 ^ (32 - k)) :
    sar32 (shl32 (r : Int) k) k = signExtend (32 - k) r := by
  unfold sar32 shl32 signExtend
  rw [toU32_natCast, Nat.shiftLeft_eq, Int.shiftRight_eq_div_pow]
  unfold toInt32
  rcases hk with rfl | rfl | rfl | rfl <;> norm_num at hr ⊢ <;> split <;> split <;> omega

/-! ## Closed forms of the encoder and of the size function -/

theorem unsignedLeb128SizeLoop_lt {data : Nat} (count : Nat) (h : data < 128) :
    unsignedLeb128SizeLoop data count = count + 1 := by
  rw [unsignedLeb128SizeLoop, Nat.shiftRight_eq_div_pow, if_neg]
  omega

theorem unsignedLeb128SizeLoop_ge {data : Nat} (count : Nat) (h : 128 ≤ data) :
    unsignedLeb128SizeLoop data count = unsignedLeb128SizeLoop (data / 128) (count + 1) := by
  rw [unsignedLeb128SizeLoop, Nat.shiftRight_eq_div_pow, if_pos]
  omega

theorem unsignedLeb128SizeLoop_count (data count : Nat) :
    unsignedLeb128SizeLoop data count = count + unsignedLeb128SizeLoop data 0 := by
  induction data using Nat.strong_induction_on generalizing count with
  | _ data ih =>
    by_cases h : data < 128
    · rw [unsignedLeb128SizeLoop_lt count h, unsignedLeb128SizeLoop_lt 0 h]
    · have h128 : 128 ≤ data := by omega
      rw [unsignedLeb128SizeLoop_ge count h128, unsignedLeb128SizeLoop_ge 0 h128,
        ih (data / 128) (by omega) (count + 1), ih (data / 128) (by omega) (0 + 1)]
      omega

theorem unsignedLeb128Size_lt {data : Nat} (h : data < 128) :
    unsignedLeb128Size data = 1 := by
  unfold unsignedLeb128Size
  rw [unsignedLeb128SizeLoop_lt 0 h]

theorem unsignedLeb128Size_ge {data : Nat} (h : 128 ≤ data) :
    unsignedLeb128Size data = unsignedLeb128Size (data / 128) + 1 := by
  unfold unsignedLeb128Size
  rw [unsignedLeb128SizeLoop_ge 0 h, unsignedLeb128SizeLoop_count]
  omega

/-- Closed form of `unsignedLeb128Size` on 32-bit values. -/
theorem unsignedLeb128Size_eq {v : Nat} (hv : v < 2 ^ 32) :
    unsignedLeb128Size v =
      if v < 2 ^ 7 then 1 else if v < 2 ^ 14 then 2 else if v < 2 ^ 21 then 3
      else if v < 2 ^ 28 then 4 else 5 := by
  by_cases h1 : v < 2 ^ 7
  · rw [if_pos h1, unsignedLeb128Size_lt (by omega)]
  rw [if_neg h1, unsignedLeb128Size_ge (by omega)]
  by_cases h2 : v < 2 ^ 14
  · rw [if_pos h2, unsignedLeb128Size_lt (by omega)]
  rw [if_neg h2, unsignedLeb128Size_ge (by omega)]
  by_cases h3 : v < 2 ^ 21
  · rw [if_pos h3, unsignedLeb128Size_lt (by omega)]
  rw [if_neg h3, unsignedLeb128Size_ge (by omega)]
  by_cases h4 : v < 2 ^ 28
  · rw [if_pos h4, unsignedLeb128Size_lt (by omega)]
  rw [if_neg h4, unsignedLeb128Size_ge (by omega), unsignedLeb128Size_lt (by omega)]

theorem unsignedLeb128Size_pos (v : Nat) : 1 ≤ unsignedLeb128Size v := by
  by_cases h : v < 128
  · rw [unsignedLeb128Size_lt h]
  · rw [unsignedLeb128Size_ge (by omega)]
    omega

theorem toU1_val (n : Nat) : (toU1 n).val = n % 256 := rfl

theorem writeUnsignedLeb128_lt (mem : Mem) (ptr : Nat) {data : Nat} (h : data < 128) :
    writeUnsignedLeb128 mem ptr data = (store mem ptr (toU1 data), ptr + 1) := by
  rw [writeUnsignedLeb128]
  have e : data &&& 0x7f = data := by rw [and_0x7f]; omega
  simp only [e]
  rw [if_neg]
  rw [toU1_val]
  omega

theorem writeUnsignedLeb128_ge (mem : Mem) (ptr : Nat) {data : Nat} (h : 128 ≤ data) :
    writeUnsignedLeb128 mem ptr data
      = writeUnsignedLeb128 (store mem ptr (toU1 (data % 128 + 128))) (ptr + 1)
          (data / 128) := by
  rw [writeUnsignedLeb128]
  have e : data &&& 0x7f = data % 128 := and_0x7f data
  have e2 : (toU1 (data % 128)).val = data % 128 := by rw [toU1_val]; omega
  have e3 : data % 128 ||| 0x80 = data % 128 + 128 := by
    have := lor_mul_pow_eq_add (a := data % 128) (k := 7) 1 (by omega)
    norm_num at this ⊢
    exact this
  simp only [e, e2, e3, Nat.shiftRight_eq_div_pow]
  rw [if_pos]
  omega

theorem div_pow_succ_group (v j : Nat) : v / 2 ^ (7 * (j + 1)) = v / 128 / 2 ^ (7 * j) := by
  rw [Nat.div_div_eq_div_mul, Nat.mul_add, Nat.pow_add, Nat.mul_comm (2 ^ (7 * j))]

theorem encodedByte_succ (v n j : Nat) :
    encodedByte v (n + 1) (j + 1) = encodedByte (v / 128) n j := by
  unfold encodedByte
  rw [div_pow_succ_group]
  by_cases h : j + 1 = n
  · rw [if_pos h, if_pos (by omega)]
  · rw [if_neg h, if_neg (by omega)]

/-- The returned pointer is the input pointer advanced by the encoded size. -/
theorem writeUnsignedLeb128_snd (mem : Mem) (p v : Nat) :
    (writeUnsignedLeb128 mem p v).2 = p + unsignedLeb128Size v := by
  induction v using Nat.strong_induction_on generalizing mem p with
  | _ v ih =>
    by_cases h : v < 128
    · rw [writeUnsignedLeb128_lt mem p h, unsignedLeb128Size_lt h]
    · have h128 : 128 ≤ v := by omega
      rw [writeUnsignedLeb128_ge mem p h128, unsignedLeb128Size_ge h128,
        ih (v / 128) (by omega)]
      omega

/-- The memory after the encoder ran: the encoded bytes inside the written
range, the old contents everywhere else. -/
theorem writeUnsignedLeb128_fst (mem : Mem) (p v a : Nat) :
    (writeUnsignedLeb128 mem p v).1 a =
      if p ≤ a ∧ a < p + unsignedLeb128Size v then
        toU1 (encodedByte v (unsignedLeb128Size v) (a - p))
      else mem a := by
  induction v using Nat.strong_induction_on generalizing mem p with
  | _ v ih =>
    by_cases h : v < 128
    · rw [writeUnsignedLeb128_lt mem p h, unsignedLeb128Size_lt h]
      show store mem p (toU1 v) a = _
      unfold store
      by_cases ha : a = p
      · subst ha
        rw [if_pos rfl, if_pos (by omega)]
        simp [encodedByte]
      · rw [if_neg ha, if_neg (by omega)]
    · have h128 : 128 ≤ v := by omega
      have hs := unsignedLeb128Size_pos (v / 128)
      rw [writeUnsignedLeb128_ge mem p h128, unsignedLeb128Size_ge h128,
        ih (v / 128) (by omega)]
      by_cases ha : a = p
      · subst ha
        rw [if_neg (by omega), if_pos (by omega)]
        have e : encodedByte v (unsignedLeb128Size (v / 128) + 1) (a - a) = v % 128 + 128 := by
          unfold encodedByte
          rw [if_neg (by omega)]
          simp
        rw [e]
        simp [store]
      · by_cases hin : p + 1 ≤ a ∧ a < p + 1 + unsignedLeb128Size (v / 128)
        · rw [if_pos hin, if_pos (by omega)]
          have e : a - p = (a - (p + 1)) + 1 := by omega
          rw [e, encodedByte_succ]
        · rw [if_neg hin, if_neg (by omega)]
          simp [store, ha]

/-- The bytes found at the cursor after the encoder ran, whatever lies beyond
them. -/
theorem byteAt_written {mem mem1 : Mem} {p v : Nat}
    (hw : ∀ i, i < unsignedLeb128Size v → mem1 (p + i) = (writeUnsignedLeb128 mem p v).1 (p + i))
    {i : Nat} (hi : i < unsignedLeb128Size v) :
    byteAt mem1 p i = encodedByte v (unsignedLeb128Size v) i % 256 := by
  unfold byteAt
  rw [hw i hi, writeUnsignedLeb128_fst, if_pos (by omega), Nat.add_sub_cancel_left, toU1_val]

/-- The unsigned decoder on the encoder's output. -/
theorem readUnsignedLeb128_written {mem mem1 : Mem} {p v : Nat} (hv : v < 2 ^ 32)
    (hw : ∀ i, i < unsignedLeb128Size v → mem1 (p + i) = (writeUnsignedLeb128 mem p v).1 (p + i)) :
    readUnsignedLeb128 mem1 p = (toInt32 v, p + unsignedLeb128Size v) := by
  have hb := fun i hi => byteAt_written hw (i := i) hi
  have hsz := unsignedLeb128Size_eq hv
  rw [readUnsignedLeb128_eq]
  by_cases h1 : v < 2 ^ 7
  · rw [if_pos h1] at hsz
    rw [hsz] at hb ⊢
    have b0 := hb 0 (by omega)
    simp only [encodedByte] at b0
    norm_num at b0
    rw [if_pos (by omega), b0, Nat.mod_eq_of_lt (by omega : v < 256),
      toInt32_of_lt (by omega : v < 2 ^ 31)]
  rw [if_neg h1] at hsz
  by_cases h2 : v < 2 ^ 14
  · rw [if_pos h2] at hsz
    rw [hsz] at hb ⊢
    have b0 := hb 0 (by omega)
    have b1 := hb 1 (by omega)
    simp only [encodedByte] at b0 b1
    norm_num at b0 b1
    rw [if_neg (by omega), if_pos (by omega), toInt32_of_lt (by omega : v < 2 ^ 31)]
    congr 2
    omega
  rw [if_neg h2] at hsz
  by_cases h3 : v < 2 ^ 21
  · rw [if_pos h3] at hsz
    rw [hsz] at hb ⊢
    have b0 := hb 0 (by omega)
    have b1 := hb 1 (by omega)
    have b2 := hb 2 (by omega)
    simp only [encodedByte] at b0 b1 b2
    norm_num at b0 b1 b2
    rw [if_neg (by omega), if_neg (by omega), if_pos (by omega),
      toInt32_of_lt (by omega : v < 2 ^ 31)]
    congr 2
    omega
  rw [if_neg h3] at hsz
  by_cases h4 : v < 2 ^ 28
  · rw [if_pos h4] at hsz
    rw [hsz] at hb ⊢
    have b0 := hb 0 (by omega)
    have b1 := hb 1 (by omega)
    have b2 := hb 2 (by omega)
    have b3 := hb 3 (by omega)
    simp only [encodedByte] at b0 b1 b2 b3
    norm_num at b0 b1 b2 b3
    rw [if_neg (by omega), if_neg (by omega), if_neg (by omega), if_pos (by omega),
      toInt32_of_lt (by omega : v < 2 ^ 31)]
    congr 2
    omega
  rw [if_neg h4] at hsz
  rw [hsz] at hb ⊢
  have b0 := hb 0 (by omega)
  have b1 := hb 1 (by omega)
  have b2 := hb 2 (by omega)
  have b3 := hb 3 (by omega)
  have b4 := hb 4 (by omega)
  simp only [encodedByte] at b0 b1 b2 b3 b4
  norm_num at b0 b1 b2 b3 b4
  rw [if_neg (by omega), if_neg (by omega), if_neg (by omega), if_neg (by omega)]
  congr 2
  omega

/-- The signed decoder on the encoder's output: encodings shorter than five
bytes are sign-extended from the top bit of their last group. -/
theorem readSignedLeb128_written {mem mem1 : Mem} {p v : Nat} (hv : v < 2 ^ 32)
    (hw : ∀ i, i < unsignedLeb128Size v → mem1 (p + i) = (writeUnsignedLeb128 mem p v).1 (p + i)) :
    readSignedLeb128 mem1 p =
      (if unsignedLeb128Size v = 5 then toInt32 v
        else signExtend (7 * unsignedLeb128Size v) v, p + unsignedLeb128Size v) := by
  have hb := fun i hi => byteAt_written hw (i := i) hi
  have hsz := unsignedLeb128Size_eq hv
  rw [readSignedLeb128_eq]
  by_cases h1 : v < 2 ^ 7
  · rw [if_pos h1] at hsz
    rw [hsz] at hb ⊢
    have b0 := hb 0 (by omega)
    simp only [encodedByte] at b0
    norm_num at b0
    rw [if_pos (by omega), b0, Nat.mod_eq_of_lt (by omega : v < 256),
      sar32_shl32 v 25 (by omega) (by omega)]
    rfl
  rw [if_neg h1] at hsz
  by_cases h2 : v < 2 ^ 14
  · rw [if_pos h2] at hsz
    rw [hsz] at hb ⊢
    have b0 := hb 0 (by omega)
    have b1 := hb 1 (by omega)
    simp only [encodedByte] at b0 b1
    norm_num at b0 b1
    have e : byteAt mem1 p 0 % 128 + byteAt mem1 p 1 * 2 ^ 7 = v := by omega
    rw [if_neg (by omega), if_pos (by omega), e, sar32_shl32 v 18 (by omega) (by omega)]
    rfl
  rw [if_neg h2] at hsz
  by_cases h3 : v < 2 ^ 21
  · rw [if_pos h3] at hsz
    rw [hsz] at hb ⊢
    have b0 := hb 0 (by omega)
    have b1 := hb 1 (by omega)
    have b2 := hb 2 (by omega)
    simp only [encodedByte] at b0 b1 b2
    norm_num at b0 b1 b2
    have e : byteAt mem1 p 0 % 128 + byteAt mem1 p 1 % 128 * 2 ^ 7
        + byteAt mem1 p 2 * 2 ^ 14 = v := by omega
    rw [if_neg (by omega), if_neg (by omega), if_pos (by omega), e,
      sar32_shl32 v 11 (by omega) (by omega)]
    rfl
  rw [if_neg h3] at hsz
  by_cases h4 : v < 2 ^ 28
  · rw [if_pos h4] at hsz
    rw [hsz] at hb ⊢
    have b0 := hb 0 (by omega)
    have b1 := hb 1 (by omega)
    have b2 := hb 2 (by omega)
    have b3 := hb 3 (by omega)
    simp only [encodedByte] at b0 b1 b2 b3
    norm_num at b0 b1 b2 b3
    have e : byteAt mem1 p 0 % 128 + byteAt mem1 p 1 % 128 * 2 ^ 7
        + byteAt mem1 p 2 % 128 * 2 ^ 14 + byteAt mem1 p 3 * 2 ^ 21 = v := by omega
    rw [if_neg (by omega), if_neg (by omega), if_neg (by omega), if_pos (by omega), e,
      sar32_shl32 v 4 (by omega) (by omega)]
    rfl
  rw [if_neg h4] at hsz
  rw [hsz] at hb ⊢
  have b0 := hb 0 (by omega)
  have b1 := hb 1 (by omega)
  have b2 := hb 2 (by omega)
  have b3 := hb 3 (by omega)
  have b4 := hb 4 (by omega)
  simp only [encodedByte] at b0 b1 b2 b3 b4
  norm_num at b0 b1 b2 b3 b4
  rw [if_neg (by omega), if_neg (by omega), if_neg (by omega), if_neg (by omega)]
  congr 2
  omega

theorem orGroups_succ (b : Nat → Nat) (n : Nat) :
    orGroups b (n + 1) = orGroups b n ||| ((b n &&& 0x7F) <<< (7 * n)) := by
  unfold orGroups
  rw [List.range_succ, List.foldl_append]
  rfl

theorem orGroups_one (b : Nat → Nat) : orGroups b 1 = b 0 % 128 := by
  rw [orGroups_succ, and_0x7f]
  simp [orGroups]

theorem orGroups_two (b : Nat → Nat) : orGroups b 2 = b 0 % 128 + b 1 % 128 * 2 ^ 7 := by
  rw [orGroups_succ, orGroups_one, and_0x7f, Nat.shiftLeft_eq,
    lor_mul_pow_eq_add _ (by omega)]

theorem orGroups_three (b : Nat → Nat) :
    orGroups b 3 = b 0 % 128 + b 1 % 128 * 2 ^ 7 + b 2 % 128 * 2 ^ 14 := by
  rw [orGroups_succ, orGroups_two, and_0x7f, Nat.shiftLeft_eq,
    lor_mul_pow_eq_add _ (by omega)]

theorem orGroups_four (b : Nat → Nat) :
    orGroups b 4
      = b 0 % 128 + b 1 % 128 * 2 ^ 7 + b 2 % 128 * 2 ^ 14 + b 3 % 128 * 2 ^ 21 := by
  rw [orGroups_succ, orGroups_three, and_0x7f, Nat.shiftLeft_eq,
    lor_mul_pow_eq_add _ (by omega)]

theorem decodedWord_five (b : Nat → Nat) :
    decodedWord b 5
      = b 0 % 128 + b 1 % 128 * 2 ^ 7 + b 2 % 128 * 2 ^ 14 + b 3 % 128 * 2 ^ 21
        + b 4 % 16 * 2 ^ 28 := by
  unfold decodedWord
  rw [if_neg (by omega), orGroups_four, Nat.shiftLeft_eq]
  have e : b 4 * 2 ^ 28 % 2 ^ 32 = b 4 % 16 * 2 ^ 28 := by omega
  rw [e, lor_mul_pow_eq_add _ (by omega)]

set_option maxRecDepth 100000 in
theorem and_0x80_u1 : ∀ x : u1, x.val &&& 0x80 = if x.val < 128 then 0 else 128 := by
  decide

/-- The continuation bit of a byte. -/
theorem and_0x80 {b : Nat} (h : b < 256) : b &&& 0x80 = if b < 128 then 0 else 128 :=
  and_0x80_u1 ⟨b, h⟩

theorem and_0x80_eq_zero {b : Nat} (h : b < 256) : b &&& 0x80 = 0 ↔ b < 128 := by
  rw [and_0x80 h]
  split_ifs with hb <;> simp [hb]

theorem consumedCount_eq (mem : Mem) (p : Nat) :
    consumedCount (byteAt mem p) =
      if byteAt mem p 0 < 128 then 1 else if byteAt mem p 1 < 128 then 2
      else if byteAt mem p 2 < 128 then 3 else if byteAt mem p 3 < 128 then 4 else 5 := by
  unfold consumedCount
  simp only [and_0x80_eq_zero (byteAt_lt mem p _)]

/-- The five ranges of a 32-bit value and the size of each. -/
theorem unsignedLeb128Size_cases {v : Nat} (hv : v < 2 ^ 32) :
    (unsignedLeb128Size v = 1 ∧ v < 2 ^ 7) ∨
    (unsignedLeb128Size v = 2 ∧ 2 ^ 7 ≤ v ∧ v < 2 ^ 14) ∨
    (unsignedLeb128Size v = 3 ∧ 2 ^ 14 ≤ v ∧ v < 2 ^ 21) ∨
    (unsignedLeb128Size v = 4 ∧ 2 ^ 21 ≤ v ∧ v < 2 ^ 28) ∨
    (unsignedLeb128Size v = 5 ∧ 2 ^ 28 ≤ v) := by
  rw [unsignedLeb128Size_eq hv]
  split_ifs <;> omega

theorem writeLoopBody_lt (mem : Mem) (ptr : Nat) {data : Nat} (h : data < 128) :
    writeLoopBody mem ptr data = ((store mem ptr (toU1 data), ptr + 1, data), false) := by
  unfold writeLoopBody
  have e : data &&& 0x7f = data := by rw [and_0x7f]; omega
  simp only [e]
  rw [if_neg]
  rw [toU1_val]
  omega

theorem writeLoopBody_ge (mem : Mem) (ptr : Nat) {data : Nat} (h : 128 ≤ data) :
    writeLoopBody mem ptr data
      = ((store mem ptr (toU1 (data % 128 + 128)), ptr + 1, data / 128), true) := by
  unfold writeLoopBody
  have e : data &&& 0x7f = data % 128 := and_0x7f data
  have e2 : (toU1 (data % 128)).val = data % 128 := by rw [toU1_val]; omega
  have e3 : data % 128 ||| 0x80 = data % 128 + 128 := by
    have := lor_mul_pow_eq_add (a := data % 128) (k := 7) 1 (by omega)
    norm_num at this ⊢
    exact this
  simp only [e, e2, e3, Nat.shiftRight_eq_div_pow]
  rw [if_pos]
  omega

/-- The fuelled loop agrees with `writeUnsignedLeb128` and makes exactly
`unsignedLeb128Size data` passes: it finishes as soon as the fuel covers them
and runs out of fuel otherwise. -/
theorem writeLoopRun_eq (fuel : Nat) (mem : Mem) (p v : Nat) :
    writeLoopRun fuel mem p v =
      if unsignedLeb128Size v ≤ fuel then
        some ((writeUnsignedLeb128 mem p v).1, (writeUnsignedLeb128 mem p v).2,
          unsignedLeb128Size v)
      else none := by
  induction v using Nat.strong_induction_on generalizing fuel mem p with
  | _ v ih =>
    have hpos := unsignedLeb128Size_pos v
    cases fuel with
    | zero =>
      rw [if_neg (by omega)]
      rfl
    | succ fuel =>
      by_cases h : v < 128
      · have hb := writeLoopBody_lt mem p h
        rw [writeLoopRun, hb, writeUnsignedLeb128_lt mem p h, unsignedLeb128Size_lt h,
          if_pos (by omega)]
      · have h128 : 128 ≤ v := by omega
        have hb := writeLoopBody_ge mem p h128
        rw [writeLoopRun, hb]
        simp only
        rw [ih (v / 128) (by omega), writeUnsignedLeb128_ge mem p h128,
          unsignedLeb128Size_ge h128]
        by_cases hf : unsignedLeb128Size (v / 128) ≤ fuel
        · rw [if_pos hf, if_pos (by omega)]
        · rw [if_neg hf, if_neg (by omega)]

/-- Closed form of the checked decoder without a limit: the value and cursor
of `readUnsignedLeb128`, and the top-nibble test on a five-byte read. -/
theorem readAndVerifyUnsignedLeb128_none (mem : Mem) (p : Nat) :
    readAndVerifyUnsignedLeb128 mem p none =
      ((readUnsignedLeb128 mem p).1, (readUnsignedLeb128 mem p).2,
        if (readUnsignedLeb128 mem p).2 = p + 5 then decide (byteAt mem p 4 &&& 0xF0 = 0)
        else true) := by
  have hb4 := byteAt_lt mem p 4
  have e4 : toU32 ((mem (p + 4)).val : Int) = (mem (p + 4)).val := by
    rw [toU32_natCast]
    exact Nat.mod_eq_of_lt (by unfold byteAt at hb4; omega)
  have hp2 : p + 1 + 1 = p + 2 := rfl
  have hp3 : p + 2 + 1 = p + 3 := rfl
  have hp4 : p + 3 + 1 = p + 4 := rfl
  have hp5 : p + 4 + 1 = p + 5 := rfl
  unfold readAndVerifyUnsignedLeb128 readUnsignedLeb128
  simp only [hp2, hp3, hp4, hp5, byteAt, e4, Bool.not_true, Bool.false_eq_true, if_false]
  split_ifs <;> first | rfl | omega

theorem and_0x7f_lor_0x80 (x : Nat) : (x &&& 0x7F) ||| 0x80 = x % 128 + 128 := by
  rw [and_0x7f]
  have := lor_mul_pow_eq_add (a := x % 128) (k := 7) 1 (by omega)
  norm_num at this ⊢
  exact this

theorem and_0x0f (n : Nat) : n &&& 0x0F = n % 16 := by
  have := Nat.and_pow_two_sub_one_eq_mod n 4
  norm_num at this
  exact this

/-! ## The claims -/

/-- C1 (unsigned round trip): for every 32-bit unsigned `v` and every buffer,
after `writeUnsignedLeb128` wrote `v` at the cursor `p`, `readUnsignedLeb128`
run from `p` on any memory `mem1` holding the written bytes (whatever bytes
follow them) returns `v` as a 32-bit word and advances the cursor by exactly
`unsignedLeb128Size v` bytes. -/
theorem unsigned_round_trip (mem mem1 : Mem) (p v : Nat) (hv : v < 2 ^ 32)
    (hw : ∀ i, i < unsignedLeb128Size v →
      mem1 (p + i) = (writeUnsignedLeb128 mem p v).1 (p + i)) :
    toU32 (readUnsignedLeb128 mem1 p).1 = v ∧
      (readUnsignedLeb128 mem1 p).2 = p + unsignedLeb128Size v := by
  rw [readUnsignedLeb128_written hv hw]
  refine ⟨?_, rfl⟩
  show toU32 (toInt32 v) = v
  rw [toU32_toInt32]
  exact Nat.mod_eq_of_lt hv

/-- Witness for C1: the value 300 written at address 0 of a zeroed buffer. -/
theorem unsigned_round_trip_witness :
    toU32 (readUnsignedLeb128 (writeUnsignedLeb128 (fun _ => 0) 0 300).1 0).1 = 300 ∧
      (readUnsignedLeb128 (writeUnsignedLeb128 (fun _ => 0) 0 300).1 0).2
        = 0 + unsignedLeb128Size 300 :=
  unsigned_round_trip (fun _ => 0) (writeUnsignedLeb128 (fun _ => 0) 0 300).1 0 300
    (by norm_num) (fun _ _ => rfl)

/-- C2: for every 32-bit unsigned `v`, the distance between the pointer
returned by `writeUnsignedLeb128` and the input pointer equals
`unsignedLeb128Size v`. -/
theorem write_length_eq_size (mem : Mem) (p v : Nat) (_hv : v < 2 ^ 32) :
    (writeUnsignedLeb128 mem p v).2 - p = unsignedLeb128Size v ∧
      p ≤ (writeUnsignedLeb128 mem p v).2 := by
  rw [writeUnsignedLeb128_snd]
  omega

/-- Witness for C2: the value 300 written at address 7. -/
theorem write_length_eq_size_witness :
    (writeUnsignedLeb128 (fun _ => 0) 7 300).2 - 7 = unsignedLeb128Size 300 ∧
      7 ≤ (writeUnsignedLeb128 (fun _ => 0) 7 300).2 :=
  write_length_eq_size (fun _ => 0) 7 300 (by norm_num)

/-- C3, counterexample: the value 64 is written as the single byte `0x40`,
which the signed decoder sign-extends from bit 6 to `-64`. -/
theorem signed_round_trip_counterexample :
    (readSignedLeb128 (writeUnsignedLeb128 (fun _ => 0) 0 (toU32 64)).1 0).1 = -64 ∧
      (readSignedLeb128 (writeUnsignedLeb128 (fun _ => 0) 0 (toU32 64)).1 0).1 ≠ 64 := by
  have e : toU32 64 = 64 := by decide
  rw [e, writeUnsignedLeb128_lt _ _ (by norm_num)]
  decide

/-- C3, amended: for every 32-bit signed `v`, with `n` the size of the encoding
of its bit pattern, `readSignedLeb128` on the bytes written by
`writeUnsignedLeb128` consumes `n` bytes and returns `v` when `n = 5` or
`v < 2^(7n-1)`, and `v - 2^(7n)` otherwise; so it returns exactly `v` if and
only if `n = 5` or `v < 2^(7n-1)`. -/
theorem signed_round_trip_amended (mem mem1 : Mem) (p : Nat) (v : Int)
    (h1 : -2 ^ 31 ≤ v) (h2 : v < 2 ^ 31)
    (hw : ∀ i, i < unsignedLeb128Size (toU32 v) →
      mem1 (p + i) = (writeUnsignedLeb128 mem p (toU32 v)).1 (p + i)) :
    (readSignedLeb128 mem1 p).2 = p + unsignedLeb128Size (toU32 v) ∧
    (readSignedLeb128 mem1 p).1 =
      (if unsignedLeb128Size (toU32 v) = 5 ∨ v < 2 ^ (7 * unsignedLeb128Size (toU32 v) - 1)
        then v else v - 2 ^ (7 * unsignedLeb128Size (toU32 v))) ∧
    ((readSignedLeb128 mem1 p).1 = v ↔
      (unsignedLeb128Size (toU32 v) = 5 ∨ v < 2 ^ (7 * unsignedLeb128Size (toU32 v) - 1))) := by
  have hu := toU32_lt v
  rw [readSignedLeb128_written hu hw]
  refine ⟨rfl, ?_⟩
  show (if unsignedLeb128Size (toU32 v) = 5 then toInt32 (toU32 v)
      else signExtend (7 * unsignedLeb128Size (toU32 v)) (toU32 v)) = _ ∧ (_ = v ↔ _)
  have hback := toInt32_toU32 h1 h2
  have hdef : toU32 v = (v % 2 ^ 32).toNat := rfl
  unfold signExtend
  rcases unsignedLeb128Size_cases hu with ⟨hn, hr⟩ | ⟨hn, hr⟩ | ⟨hn, hr⟩ | ⟨hn, hr⟩ | ⟨hn, hr⟩
  all_goals rw [hn]
  all_goals norm_num
  all_goals first
    | exact hback
    | (constructor <;> split_ifs <;> omega)

/-- Witness for C3 (amended): the value `-2` (pattern `0xFFFFFFFE`, five
bytes) written at address 0. -/
theorem signed_round_trip_amended_witness :
    (readSignedLeb128 (writeUnsignedLeb128 (fun _ => 0) 0 (toU32 (-2))).1 0).2
      = 0 + unsignedLeb128Size (toU32 (-2)) ∧
    (readSignedLeb128 (writeUnsignedLeb128 (fun _ => 0) 0 (toU32 (-2))).1 0).1 =
      (if unsignedLeb128Size (toU32 (-2)) = 5 ∨
          (-2 : Int) < 2 ^ (7 * unsignedLeb128Size (toU32 (-2)) - 1)
        then -2 else -2 - 2 ^ (7 * unsignedLeb128Size (toU32 (-2)))) ∧
    ((readSignedLeb128 (writeUnsignedLeb128 (fun _ => 0) 0 (toU32 (-2))).1 0).1 = -2 ↔
      (unsignedLeb128Size (toU32 (-2)) = 5 ∨
        (-2 : Int) < 2 ^ (7 * unsignedLeb128Size (toU32 (-2)) - 1))) :=
  signed_round_trip_amended (fun _ => 0)
    (writeUnsignedLeb128 (fun _ => 0) 0 (toU32 (-2))).1 0 (-2) (by norm_num) (by norm_num)
    (fun _ _ => rfl)

/-- C4: on every input, `readUnsignedLeb128` consumes `N` bytes, `N` being the
1-based position of the first byte among the first four whose high bit is
clear, or 5 (so `1 ≤ N ≤ 5`), and returns, as a 32-bit word, the bitwise OR over
`i < N` of `(b_i & 0x7F) << 7i` when `N ≤ 4`, and for `N = 5` the OR of the
first four groups with `b_4 << 28` truncated to 32 bits. -/
theorem readUnsigned_value (mem : Mem) (p : Nat) :
    (readUnsignedLeb128 mem p).2 = p + consumedCount (byteAt mem p) ∧
    1 ≤ consumedCount (byteAt mem p) ∧ consumedCount (byteAt mem p) ≤ 5 ∧
    1 ≤ (readUnsignedLeb128 mem p).2 - p ∧ (readUnsignedLeb128 mem p).2 - p ≤ 5 ∧
    toU32 (readUnsignedLeb128 mem p).1
      = decodedWord (byteAt mem p) (consumedCount (byteAt mem p)) ∧
    toU32 (readUnsignedLeb128 mem p).1
      = decodedWord (byteAt mem p) ((readUnsignedLeb128 mem p).2 - p) := by
  have hb0 := byteAt_lt mem p 0
  have hb1 := byteAt_lt mem p 1
  have hb2 := byteAt_lt mem p 2
  have hb3 := byteAt_lt mem p 3
  rw [consumedCount_eq, readUnsignedLeb128_eq]
  split_ifs with h0 h1 h2 h3
  · simp only [Nat.add_sub_cancel_left, decodedWord]
    rw [if_pos (by omega), orGroups_one, toU32_natCast]
    refine ⟨trivial, by omega, by omega, by omega, by omega, ?_, ?_⟩ <;> omega
  · simp only [Nat.add_sub_cancel_left, decodedWord]
    rw [if_pos (by omega), orGroups_two, toU32_natCast]
    refine ⟨trivial, by omega, by omega, by omega, by omega, ?_, ?_⟩ <;> omega
  · simp only [Nat.add_sub_cancel_left, decodedWord]
    rw [if_pos (by omega), orGroups_three, toU32_natCast]
    refine ⟨trivial, by omega, by omega, by omega, by omega, ?_, ?_⟩ <;> omega
  · simp only [Nat.add_sub_cancel_left, decodedWord]
    rw [if_pos (by omega), orGroups_four, toU32_natCast]
    refine ⟨trivial, by omega, by omega, by omega, by omega, ?_, ?_⟩ <;> omega
  · simp only [Nat.add_sub_cancel_left]
    rw [decodedWord_five, toU32_toInt32]
    refine ⟨trivial, by omega, by omega, by omega, by omega, ?_, ?_⟩ <;> omega

/-- C5: on every input on which `readSignedLeb128` consumes `N` bytes with
`1 ≤ N ≤ 4`, the result is the `7N`-bit value `r` assembled from the `N` groups,
sign-extended from bit `7N-1`: it is `(r << (32-7N)) >> (32-7N)` with an
arithmetic right shift and lies in `[-2^(7N-1), 2^(7N-1))`; when `N = 5` no
extension shift is applied and the result is the 32-bit pattern
`low 28 bits | (b_4 << 28) mod 2^32` read as a two's-complement integer. -/
theorem readSigned_value (mem : Mem) (p : Nat) :
    (1 ≤ (readSignedLeb128 mem p).2 - p ∧ (readSignedLeb128 mem p).2 - p ≤ 5) ∧
    ((readSignedLeb128 mem p).2 - p ≤ 4 →
      (readSignedLeb128 mem p).1
        = sar32 (shl32 ((orGroups (byteAt mem p) ((readSignedLeb128 mem p).2 - p) : Nat) : Int)
            (32 - 7 * ((readSignedLeb128 mem p).2 - p)))
            (32 - 7 * ((readSignedLeb128 mem p).2 - p)) ∧
      (readSignedLeb128 mem p).1
        = signExtend (7 * ((readSignedLeb128 mem p).2 - p))
            (orGroups (byteAt mem p) ((readSignedLeb128 mem p).2 - p)) ∧
      orGroups (byteAt mem p) ((readSignedLeb128 mem p).2 - p)
        < 2 ^ (7 * ((readSignedLeb128 mem p).2 - p)) ∧
      -2 ^ (7 * ((readSignedLeb128 mem p).2 - p) - 1) ≤ (readSignedLeb128 mem p).1 ∧
      (readSignedLeb128 mem p).1 < 2 ^ (7 * ((readSignedLeb128 mem p).2 - p) - 1)) ∧
    ((readSignedLeb128 mem p).2 - p = 5 →
      (readSignedLeb128 mem p).1
        = toInt32 (orGroups (byteAt mem p) 4 ||| ((byteAt mem p 4 <<< 28) % 2 ^ 32))) := by
  have hb0 := byteAt_lt mem p 0
  have hb1 := byteAt_lt mem p 1
  have hb2 := byteAt_lt mem p 2
  have hb3 := byteAt_lt mem p 3
  have h5 := decodedWord_five (byteAt mem p)
  unfold decodedWord at h5
  rw [if_neg (by omega)] at h5
  rw [readSignedLeb128_eq]
  split_ifs with h0 h1 h2 h3
  · simp only [Nat.add_sub_cancel_left]
    have e : orGroups (byteAt mem p) 1 = byteAt mem p 0 := by rw [orGroups_one]; omega
    have hs := sar32_shl32 (byteAt mem p 0) 25 (by omega) (by omega)
    rw [e]
    refine ⟨by omega, fun _ => ⟨rfl, hs, by omega, ?_, ?_⟩, fun h => by omega⟩ <;>
      (rw [hs]; unfold signExtend; norm_num; split_ifs <;> omega)
  · simp only [Nat.add_sub_cancel_left]
    have e : orGroups (byteAt mem p) 2 = byteAt mem p 0 % 128 + byteAt mem p 1 * 2 ^ 7 := by
      rw [orGroups_two]; omega
    have hs := sar32_shl32 (byteAt mem p 0 % 128 + byteAt mem p 1 * 2 ^ 7) 18
      (by omega) (by omega)
    rw [e]
    refine ⟨by omega, fun _ => ⟨rfl, hs, by omega, ?_, ?_⟩, fun h => by omega⟩ <;>
      (rw [hs]; unfold signExtend; norm_num; split_ifs <;> omega)
  · simp only [Nat.add_sub_cancel_left]
    have e : orGroups (byteAt mem p) 3
        = byteAt mem p 0 % 128 + byteAt mem p 1 % 128 * 2 ^ 7 + byteAt mem p 2 * 2 ^ 14 := by
      rw [orGroups_three]; omega
    have hs := sar32_shl32
      (byteAt mem p 0 % 128 + byteAt mem p 1 % 128 * 2 ^ 7 + byteAt mem p 2 * 2 ^ 14) 11
      (by omega) (by omega)
    rw [e]
    refine ⟨by omega, fun _ => ⟨rfl, hs, by omega, ?_, ?_⟩, fun h => by omega⟩ <;>
      (rw [hs]; unfold signExtend; norm_num; split_ifs <;> omega)
  · simp only [Nat.add_sub_cancel_left]
    have e : orGroups (byteAt mem p) 4
        = byteAt mem p 0 % 128 + byteAt mem p 1 % 128 * 2 ^ 7
          + byteAt mem p 2 % 128 * 2 ^ 14 + byteAt mem p 3 * 2 ^ 21 := by
      rw [orGroups_four]; omega
    have hs := sar32_shl32
      (byteAt mem p 0 % 128 + byteAt mem p 1 % 128 * 2 ^ 7
        + byteAt mem p 2 % 128 * 2 ^ 14 + byteAt mem p 3 * 2 ^ 21) 4
      (by omega) (by omega)
    rw [e]
    refine ⟨by omega, fun _ => ⟨rfl, hs, by omega, ?_, ?_⟩, fun h => by omega⟩ <;>
      (rw [hs]; unfold signExtend; norm_num; split_ifs <;> omega)
  · simp only [Nat.add_sub_cancel_left]
    refine ⟨by omega, fun h => by omega, fun _ => ?_⟩
    rw [h5]

/-- C6: on every input both decoders leave the cursor exactly `N` bytes past
its start, `N` being the 1-based position of the first byte among the first
four whose high bit is clear, or 5 if all four have it set; `1 ≤ N ≤ 5`, the
fifth byte never continues the sequence, and no byte at offset `≥ N`
influences the result (memories agreeing on the first `N` bytes decode
alike). -/
theorem decoders_consume (mem : Mem) (p : Nat) :
    (readUnsignedLeb128 mem p).2 = p + consumedCount (byteAt mem p) ∧
    (readSignedLeb128 mem p).2 = p + consumedCount (byteAt mem p) ∧
    1 ≤ consumedCount (byteAt mem p) ∧ consumedCount (byteAt mem p) ≤ 5 ∧
    (∀ mem1 : Mem, (∀ i, i < consumedCount (byteAt mem p) → mem1 (p + i) = mem (p + i)) →
      readUnsignedLeb128 mem1 p = readUnsignedLeb128 mem p ∧
      readSignedLeb128 mem1 p = readSignedLeb128 mem p) := by
  rw [consumedCount_eq, readUnsignedLeb128_eq, readSignedLeb128_eq]
  refine ⟨by split_ifs <;> rfl, by split_ifs <;> rfl, by split_ifs <;> omega,
    by split_ifs <;> omega, ?_⟩
  intro mem1 hagree
  have key : ∀ i, i < (if byteAt mem p 0 < 128 then 1 else if byteAt mem p 1 < 128 then 2
      else if byteAt mem p 2 < 128 then 3 else if byteAt mem p 3 < 128 then 4 else 5) →
      byteAt mem1 p i = byteAt mem p i := by
    intro i hi
    unfold byteAt
    rw [hagree i hi]
  rw [readUnsignedLeb128_eq, readSignedLeb128_eq]
  split_ifs at key with h0 h1 h2 h3
  · have k0 := key 0 (by omega)
    simp only [k0, if_pos h0, and_self]
  · have k0 := key 0 (by omega)
    have k1 := key 1 (by omega)
    simp only [k0, k1, if_neg h0, if_pos h1, and_self]
  · have k0 := key 0 (by omega)
    have k1 := key 1 (by omega)
    have k2 := key 2 (by omega)
    simp only [k0, k1, k2, if_neg h0, if_neg h1, if_pos h2, and_self]
  · have k0 := key 0 (by omega)
    have k1 := key 1 (by omega)
    have k2 := key 2 (by omega)
    have k3 := key 3 (by omega)
    simp only [k0, k1, k2, k3, if_neg h0, if_neg h1, if_neg h2, if_pos h3, and_self]
  · have k0 := key 0 (by omega)
    have k1 := key 1 (by omega)
    have k2 := key 2 (by omega)
    have k3 := key 3 (by omega)
    have k4 := key 4 (by omega)
    simp only [k0, k1, k2, k3, k4, if_neg h0, if_neg h1, if_neg h2, if_neg h3, and_self]

/-- C7: for every 32-bit unsigned `v`, among the bytes written by
`writeUnsignedLeb128` (from the cursor up to the returned pointer) every byte
except the last has the continuation bit `0x80` set, the last has it clear,
and when `v ≠ 0` the last byte is non-zero. -/
theorem write_continuation_bits (mem : Mem) (p v : Nat) (hv : v < 2 ^ 32) :
    (∀ a, p ≤ a → a + 1 < (writeUnsignedLeb128 mem p v).2 →
      ((writeUnsignedLeb128 mem p v).1 a).val &&& 0x80 = 0x80) ∧
    ((writeUnsignedLeb128 mem p v).1 ((writeUnsignedLeb128 mem p v).2 - 1)).val &&& 0x80 = 0 ∧
    (v ≠ 0 →
      ((writeUnsignedLeb128 mem p v).1 ((writeUnsignedLeb128 mem p v).2 - 1)).val ≠ 0) := by
  have hpos := unsignedLeb128Size_pos v
  rw [writeUnsignedLeb128_snd]
  have hlast : ((writeUnsignedLeb128 mem p v).1 (p + unsignedLeb128Size v - 1)).val
      = v / 2 ^ (7 * (unsignedLeb128Size v - 1)) % 256 := by
    rw [writeUnsignedLeb128_fst, if_pos (by omega), toU1_val]
    unfold encodedByte
    rw [if_pos (by omega)]
    congr 4
    omega
  have hsmall : v / 2 ^ (7 * (unsignedLeb128Size v - 1)) < 128 ∧
      (v ≠ 0 → v / 2 ^ (7 * (unsignedLeb128Size v - 1)) ≠ 0) := by
    rcases unsignedLeb128Size_cases hv with ⟨hn, hr⟩ | ⟨hn, hr⟩ | ⟨hn, hr⟩ | ⟨hn, hr⟩ | ⟨hn, hr⟩
    all_goals rw [hn]
    all_goals norm_num
    all_goals omega
  have hmod : v / 2 ^ (7 * (unsignedLeb128Size v - 1)) % 256
      = v / 2 ^ (7 * (unsignedLeb128Size v - 1)) := Nat.mod_eq_of_lt (by omega)
  rw [hmod] at hlast
  refine ⟨?_, ?_, ?_⟩
  · intro a ha1 ha2
    rw [writeUnsignedLeb128_fst, if_pos (by omega), toU1_val]
    unfold encodedByte
    rw [if_neg (by omega), and_0x80 (Nat.mod_lt _ (by decide)), if_neg (by omega)]
  · rw [hlast, and_0x80 (by omega), if_pos hsmall.1]
  · intro hne
    rw [hlast]
    exact hsmall.2 hne

/-- Witness for C7: the value 300 written at address 0. -/
theorem write_continuation_bits_witness :
    (∀ a, 0 ≤ a → a + 1 < (writeUnsignedLeb128 (fun _ => 0) 0 300).2 →
      ((writeUnsignedLeb128 (fun _ => 0) 0 300).1 a).val &&& 0x80 = 0x80) ∧
    ((writeUnsignedLeb128 (fun _ => 0) 0 300).1
      ((writeUnsignedLeb128 (fun _ => 0) 0 300).2 - 1)).val &&& 0x80 = 0 ∧
    ((300 : Nat) ≠ 0 →
      ((writeUnsignedLeb128 (fun _ => 0) 0 300).1
        ((writeUnsignedLeb128 (fun _ => 0) 0 300).2 - 1)).val ≠ 0) :=
  write_continuation_bits (fun _ => 0) 0 300 (by norm_num)

/-- C8: the encoder's output is minimal in length: whenever
`readUnsignedLeb128` returns the 32-bit word `v` while consuming `k` bytes,
`unsignedLeb128Size v ≤ k`. -/
theorem size_le_consumed (mem : Mem) (p : Nat) :
    unsignedLeb128Size (toU32 (readUnsignedLeb128 mem p).1)
      ≤ (readUnsignedLeb128 mem p).2 - p := by
  have hb0 := byteAt_lt mem p 0
  have hb1 := byteAt_lt mem p 1
  have hb2 := byteAt_lt mem p 2
  have hb3 := byteAt_lt mem p 3
  have hc := unsignedLeb128Size_cases (toU32_lt (readUnsignedLeb128 mem p).1)
  rw [readUnsignedLeb128_eq] at hc ⊢
  split_ifs at hc ⊢ with h0 h1 h2 h3
  all_goals simp only [Nat.add_sub_cancel_left, toU32_natCast] at hc ⊢
  all_goals omega

/-- C10: for every 32-bit unsigned `v`, `unsignedLeb128Size v` is the least
`k ≥ 1` with `v < 2^(7k)` (1 below `2^7`, 2 below `2^14`, 3 below `2^21`,
4 below `2^28`, otherwise 5); it is never 0 and never greater than 5. -/
theorem size_is_least (v : Nat) (hv : v < 2 ^ 32) :
    unsignedLeb128Size v =
      (if v < 2 ^ 7 then 1 else if v < 2 ^ 14 then 2 else if v < 2 ^ 21 then 3
        else if v < 2 ^ 28 then 4 else 5) ∧
    1 ≤ unsignedLeb128Size v ∧ unsignedLeb128Size v ≤ 5 ∧
    v < 2 ^ (7 * unsignedLeb128Size v) ∧
    (∀ k, 1 ≤ k → v < 2 ^ (7 * k) → unsignedLeb128Size v ≤ k) := by
  refine ⟨unsignedLeb128Size_eq hv, unsignedLeb128Size_pos v, ?_, ?_, ?_⟩
  · rcases unsignedLeb128Size_cases hv with h | h | h | h | h <;> omega
  · rcases unsignedLeb128Size_cases hv with ⟨hn, hr⟩ | ⟨hn, hr⟩ | ⟨hn, hr⟩ | ⟨hn, hr⟩ | ⟨hn, hr⟩
    all_goals rw [hn]
    all_goals norm_num
    all_goals omega
  · intro k hk hlt
    by_contra hcon
    have hk4 : k ≤ 4 := by
      rcases unsignedLeb128Size_cases hv with h | h | h | h | h <;> omega
    have hmono : (2 : Nat) ^ (7 * k) ≤ 2 ^ (7 * (unsignedLeb128Size v - 1)) :=
      Nat.pow_le_pow_right (by decide) (by omega)
    rcases unsignedLeb128Size_cases hv with ⟨hn, hr⟩ | ⟨hn, hr⟩ | ⟨hn, hr⟩ | ⟨hn, hr⟩ | ⟨hn, hr⟩
    all_goals rw [hn] at hmono hcon
    all_goals norm_num at hmono
    all_goals omega

/-- Witness for C10: the value `2^14` needs three bytes. -/
theorem size_is_least_witness :
    unsignedLeb128Size 16384 =
      (if 16384 < 2 ^ 7 then 1 else if 16384 < 2 ^ 14 then 2 else if 16384 < 2 ^ 21 then 3
        else if 16384 < 2 ^ 28 then 4 else 5) ∧
    1 ≤ unsignedLeb128Size 16384 ∧ unsignedLeb128Size 16384 ≤ 5 ∧
    16384 < 2 ^ (7 * unsignedLeb128Size 16384) ∧
    (∀ k, 1 ≤ k → 16384 < 2 ^ (7 * k) → unsignedLeb128Size 16384 ≤ k) :=
  size_is_least 16384 (by norm_num)

/-- C9, counterexample: `0xFF 0xFF 0xFF 0xFF 0xFF` has the length of the
encoding of `2^32 - 1`, decodes to `2^32 - 1` and is consumed entirely, but its
fifth byte differs from the `0x0F` the encoder writes. -/
theorem unique_encoding_counterexample :
    toU32 (readUnsignedLeb128 (fun _ => 0xFF) 0).1 = 4294967295 ∧
    (readUnsignedLeb128 (fun _ => 0xFF) 0).2 = 0 + unsignedLeb128Size 4294967295 ∧
    4 < unsignedLeb128Size 4294967295 ∧
    (writeUnsignedLeb128 (fun _ => 0) 0 4294967295).1 (0 + 4) = 0x0F ∧
    (fun _ => 0xFF : Mem) (0 + 4) ≠ (writeUnsignedLeb128 (fun _ => 0) 0 4294967295).1 (0 + 4) := by
  have hn : unsignedLeb128Size 4294967295 = 5 := by
    rw [unsignedLeb128Size_eq (by norm_num)]
    norm_num
  have hw : (writeUnsignedLeb128 (fun _ => 0) 0 4294967295).1 (0 + 4) = 0x0F := by
    rw [writeUnsignedLeb128_fst, if_pos (by omega), hn]
    decide
  rw [hw, hn]
  decide

/-- C9, amended: for every 32-bit unsigned `v`, a byte sequence of length
`unsignedLeb128Size v` that `readUnsignedLeb128` decodes to `v` while consuming
all of it agrees with the output of `writeUnsignedLeb128` for `v` in each of
its first four bytes, and in a fifth byte in the low four bits. -/
theorem unique_encoding_amended (mem mem0 : Mem) (p v : Nat) (hv : v < 2 ^ 32)
    (hval : toU32 (readUnsignedLeb128 mem p).1 = v)
    (hlen : (readUnsignedLeb128 mem p).2 = p + unsignedLeb128Size v) :
    ∀ i, i < unsignedLeb128Size v →
      (i < 4 → mem (p + i) = (writeUnsignedLeb128 mem0 p v).1 (p + i)) ∧
      (i = 4 → (mem (p + i)).val % 16 = ((writeUnsignedLeb128 mem0 p v).1 (p + i)).val) := by
  have hb0 := byteAt_lt mem p 0
  have hb1 := byteAt_lt mem p 1
  have hb2 := byteAt_lt mem p 2
  have hb3 := byteAt_lt mem p 3
  have hb4 := byteAt_lt mem p 4
  have hwr : ∀ i, i < unsignedLeb128Size v →
      ((writeUnsignedLeb128 mem0 p v).1 (p + i)).val
        = encodedByte v (unsignedLeb128Size v) i % 256 := by
    intro i hi
    rw [writeUnsignedLeb128_fst, if_pos (by omega), Nat.add_sub_cancel_left, toU1_val]
  rw [readUnsignedLeb128_eq] at hval hlen
  intro i hi
  have hwi := hwr i hi
  rw [Fin.ext_iff, hwi]
  clear hwr hwi
  unfold encodedByte
  rcases unsignedLeb128Size_cases hv with ⟨hn, hr⟩ | ⟨hn, hr⟩ | ⟨hn, hr⟩ | ⟨hn, hr⟩ | ⟨hn, hr⟩
  all_goals rw [hn] at hlen hi ⊢
  all_goals split_ifs at hval hlen with h0 h1 h2 h3
  all_goals simp only [Prod.snd, Prod.fst, toU32_natCast, toU32_toInt32] at hval hlen
  all_goals first
    | omega
    | (simp only [byteAt, Nat.add_zero] at *
       interval_cases i <;> norm_num <;> omega)

/-- Witness for C9 (amended): the five bytes `0xFF` decode to `2^32 - 1`; the
fifth agrees with the encoder's `0x0F` in its low four bits. -/
theorem unique_encoding_amended_witness :
    (4 < 4 → (fun _ => 0xFF : Mem) (0 + 4)
        = (writeUnsignedLeb128 (fun _ => 0) 0 4294967295).1 (0 + 4)) ∧
    (4 = 4 → ((fun _ => 0xFF : Mem) (0 + 4)).val % 16
        = ((writeUnsignedLeb128 (fun _ => 0) 0 4294967295).1 (0 + 4)).val) :=
  unique_encoding_amended (fun _ => 0xFF) (fun _ => 0) 0 4294967295
    (by norm_num) (by decide)
    (by rw [unsignedLeb128Size_eq (by norm_num)]; decide) 4
    (by rw [unsignedLeb128Size_eq (by norm_num)]; norm_num)

/-- C11, counterexample: the value 1 has size 1 and is not 0. -/
theorem size_one_only_zero_counterexample :
    unsignedLeb128Size 1 = 1 ∧ (1 : Nat) < 2 ^ 32 ∧ (1 : Nat) ≠ 0 := by
  refine ⟨unsignedLeb128Size_lt (by norm_num), by norm_num, by norm_num⟩

/-- C11, amended: for every 32-bit unsigned `v`, `unsignedLeb128Size v = 1` if
and only if `v < 2^7`; in particular the size of 0 is 1. -/
theorem size_one_iff (v : Nat) (hv : v < 2 ^ 32) :
    (unsignedLeb128Size v = 1 ↔ v < 2 ^ 7) ∧ unsignedLeb128Size 0 = 1 := by
  refine ⟨?_, unsignedLeb128Size_lt (by norm_num)⟩
  rcases unsignedLeb128Size_cases hv with h | h | h | h | h <;> constructor <;> omega

/-- Witness for C11 (amended): the value 127. -/
theorem size_one_iff_witness :
    (unsignedLeb128Size 127 = 1 ↔ 127 < 2 ^ 7) ∧ unsignedLeb128Size 0 = 1 :=
  size_one_iff 127 (by norm_num)

/-- C12: for the value 0, `writeUnsignedLeb128` stores the single byte `0x00`
at the cursor, leaves every other byte alone and returns the cursor advanced
by one; `unsignedLeb128Size 0 = 1`. -/
theorem write_zero (mem : Mem) (p : Nat) :
    (writeUnsignedLeb128 mem p 0).1 p = 0x00 ∧
    (∀ a, a ≠ p → (writeUnsignedLeb128 mem p 0).1 a = mem a) ∧
    (writeUnsignedLeb128 mem p 0).2 = p + 1 ∧
    unsignedLeb128Size 0 = 1 := by
  rw [writeUnsignedLeb128_lt mem p (by norm_num)]
  refine ⟨?_, ?_, rfl, unsignedLeb128Size_lt (by norm_num)⟩
  · show store mem p (toU1 0) p = 0
    unfold store
    rw [if_pos rfl]
    rfl
  · intro a ha
    show store mem p (toU1 0) a = mem a
    unfold store
    rw [if_neg ha]

/-- C13: `readUnsignedLeb128` returns 0 on `[0x00]`, 127 on `[0x7F]`, 128 on
`[0x80, 0x01]` and, as a 32-bit unsigned word, 4294967295 on
`[0xFF, 0xFF, 0xFF, 0xFF, 0x0F]`, consuming 1, 1, 2 and 5 bytes, whatever the
rest of the memory holds. -/
theorem readUnsigned_vectors :
    (∀ (mem : Mem) (p : Nat), mem p = 0x00 → readUnsignedLeb128 mem p = (0, p + 1)) ∧
    (∀ (mem : Mem) (p : Nat), mem p = 0x7F → readUnsignedLeb128 mem p = (127, p + 1)) ∧
    (∀ (mem : Mem) (p : Nat), mem p = 0x80 → mem (p + 1) = 0x01 →
      readUnsignedLeb128 mem p = (128, p + 2)) ∧
    (∀ (mem : Mem) (p : Nat), mem p = 0xFF → mem (p + 1) = 0xFF → mem (p + 2) = 0xFF →
      mem (p + 3) = 0xFF → mem (p + 4) = 0x0F →
      toU32 (readUnsignedLeb128 mem p).1 = 4294967295 ∧
      (readUnsignedLeb128 mem p).2 = p + 5) := by
  refine ⟨?_, ?_, ?_, ?_⟩
  · intro mem p h0
    have e0 : byteAt mem p 0 = 0 := by unfold byteAt; rw [Nat.add_zero, h0]; rfl
    rw [readUnsignedLeb128_eq, e0, if_pos (by norm_num)]
    rfl
  · intro mem p h0
    have e0 : byteAt mem p 0 = 127 := by unfold byteAt; rw [Nat.add_zero, h0]; rfl
    rw [readUnsignedLeb128_eq, e0, if_pos (by norm_num)]
    rfl
  · intro mem p h0 h1
    have e0 : byteAt mem p 0 = 128 := by unfold byteAt; rw [Nat.add_zero, h0]; rfl
    have e1 : byteAt mem p 1 = 1 := by unfold byteAt; rw [h1]; rfl
    rw [readUnsignedLeb128_eq, e0, e1, if_neg (by norm_num), if_pos (by norm_num)]
    rfl
  · intro mem p h0 h1 h2 h3 h4
    have e0 : byteAt mem p 0 = 255 := by unfold byteAt; rw [Nat.add_zero, h0]; rfl
    have e1 : byteAt mem p 1 = 255 := by unfold byteAt; rw [h1]; rfl
    have e2 : byteAt mem p 2 = 255 := by unfold byteAt; rw [h2]; rfl
    have e3 : byteAt mem p 3 = 255 := by unfold byteAt; rw [h3]; rfl
    have e4 : byteAt mem p 4 = 15 := by unfold byteAt; rw [h4]; rfl
    rw [readUnsignedLeb128_eq, e0, e1, e2, e3, e4, if_neg (by norm_num), if_neg (by norm_num),
      if_neg (by norm_num), if_neg (by norm_num)]
    refine ⟨?_, rfl⟩
    dsimp only
    rw [toU32_toInt32]
    norm_num

/-- C14: `readSignedLeb128` returns -1 on `[0x7F]`, consuming one byte, and
127 on `[0xFF, 0x00]`, consuming two bytes, whatever the rest of the memory
holds. -/
theorem readSigned_vectors :
    (∀ (mem : Mem) (p : Nat), mem p = 0x7F → readSignedLeb128 mem p = (-1, p + 1)) ∧
    (∀ (mem : Mem) (p : Nat), mem p = 0xFF → mem (p + 1) = 0x00 →
      readSignedLeb128 mem p = (127, p + 2)) := by
  refine ⟨?_, ?_⟩
  · intro mem p h0
    have e0 : byteAt mem p 0 = 127 := by unfold byteAt; rw [Nat.add_zero, h0]; rfl
    rw [readSignedLeb128_eq, e0, if_pos (by norm_num)]
    congr 1
  · intro mem p h0 h1
    have e0 : byteAt mem p 0 = 255 := by unfold byteAt; rw [Nat.add_zero, h0]; rfl
    have e1 : byteAt mem p 1 = 0 := by unfold byteAt; rw [h1]; rfl
    rw [readSignedLeb128_eq, e0, e1, if_neg (by norm_num), if_pos (by norm_num)]
    congr 1

/-- C15: for every 32-bit unsigned value the `while (true)` loop of
`writeUnsignedLeb128` terminates: it reaches its `break` after exactly
`unsignedLeb128Size v` passes, a number between 1 and 5, with the result of
`writeUnsignedLeb128` (enough fuel gives it, less fuel does not), and each pass
stores one byte at the cursor and advances the cursor by one. -/
theorem write_terminates (mem : Mem) (p v : Nat) (hv : v < 2 ^ 32) :
    1 ≤ unsignedLeb128Size v ∧ unsignedLeb128Size v ≤ 5 ∧
    (∀ fuel, unsignedLeb128Size v ≤ fuel →
      writeLoopRun fuel mem p v
        = some ((writeUnsignedLeb128 mem p v).1, (writeUnsignedLeb128 mem p v).2,
            unsignedLeb128Size v)) ∧
    (∀ fuel, fuel < unsignedLeb128Size v → writeLoopRun fuel mem p v = none) ∧
    (writeUnsignedLeb128 mem p v).2 = p + unsignedLeb128Size v ∧
    (∀ (m : Mem) (q d : Nat), (writeLoopBody m q d).1.2.1 = q + 1 ∧
      ∀ a, a ≠ q → (writeLoopBody m q d).1.1 a = m a) := by
  refine ⟨unsignedLeb128Size_pos v, ?_, ?_, ?_, writeUnsignedLeb128_snd mem p v, ?_⟩
  · rcases unsignedLeb128Size_cases hv with h | h | h | h | h <;> omega
  · intro fuel hf
    rw [writeLoopRun_eq, if_pos hf]
  · intro fuel hf
    rw [writeLoopRun_eq, if_neg (by omega)]
  · intro m q d
    by_cases h : d < 128
    · rw [writeLoopBody_lt m q h]
      refine ⟨rfl, fun a ha => ?_⟩
      show store m q _ a = m a
      unfold store
      rw [if_neg ha]
    · rw [writeLoopBody_ge m q (by omega)]
      refine ⟨rfl, fun a ha => ?_⟩
      show store m q _ a = m a
      unfold store
      rw [if_neg ha]

/-- Witness for C15: the value 300 takes two passes. -/
theorem write_terminates_witness :
    1 ≤ unsignedLeb128Size 300 ∧ unsignedLeb128Size 300 ≤ 5 ∧
    (∀ fuel, unsignedLeb128Size 300 ≤ fuel →
      writeLoopRun fuel (fun _ => 0) 0 300
        = some ((writeUnsignedLeb128 (fun _ => 0) 0 300).1,
            (writeUnsignedLeb128 (fun _ => 0) 0 300).2, unsignedLeb128Size 300)) ∧
    (∀ fuel, fuel < unsignedLeb128Size 300 → writeLoopRun fuel (fun _ => 0) 0 300 = none) ∧
    (writeUnsignedLeb128 (fun _ => 0) 0 300).2 = 0 + unsignedLeb128Size 300 ∧
    (∀ (m : Mem) (q d : Nat), (writeLoopBody m q d).1.2.1 = q + 1 ∧
      ∀ a, a ≠ q → (writeLoopBody m q d).1.1 a = m a) :=
  write_terminates (fun _ => 0) 0 300 (by norm_num)

/-- C16, counterexample: read without a limit, the five bytes
`0x80 0x80 0x80 0x80 0x1F` are consumed entirely and reported invalid, the
fifth byte `0x1F` having bit 4 set. -/
theorem checked_validity_counterexample :
    (readAndVerifyUnsignedLeb128 (fun a => if a < 4 then 0x80 else 0x1F) 0 none).2.1 = 0 + 5 ∧
    (readAndVerifyUnsignedLeb128 (fun a => if a < 4 then 0x80 else 0x1F) 0 none).2.2
      = false ∧
    (0x1F &&& 0xF0 : Nat) = 0x10 := by
  decide

/-- C16, amended: without a limit, `readAndVerifyUnsignedLeb128` reports
`okay = false` exactly when five bytes are consumed and the fifth byte has one
of its high four bits set (`& 0xF0 ≠ 0`); every read of one to four bytes is
valid; a five-byte read whose last byte is `0x0F` is valid, one whose last byte
is `0x1F` or `0xFF` is invalid; and on success the value and the cursor are
those of `readUnsignedLeb128`. -/
theorem checked_validity (mem : Mem) (p : Nat) :
    ((readAndVerifyUnsignedLeb128 mem p none).2.2 = false ↔
      ((readAndVerifyUnsignedLeb128 mem p none).2.1 = p + 5 ∧
        byteAt mem p 4 &&& 0xF0 ≠ 0)) ∧
    ((readAndVerifyUnsignedLeb128 mem p none).2.1 ≤ p + 4 →
      (readAndVerifyUnsignedLeb128 mem p none).2.2 = true) ∧
    ((readAndVerifyUnsignedLeb128 mem p none).2.1 = p + 5 → byteAt mem p 4 = 0x0F →
      (readAndVerifyUnsignedLeb128 mem p none).2.2 = true) ∧
    ((readAndVerifyUnsignedLeb128 mem p none).2.1 = p + 5 →
      (byteAt mem p 4 = 0x1F ∨ byteAt mem p 4 = 0xFF) →
      (readAndVerifyUnsignedLeb128 mem p none).2.2 = false) ∧
    ((readAndVerifyUnsignedLeb128 mem p none).2.2 = true →
      (readAndVerifyUnsignedLeb128 mem p none).1 = (readUnsignedLeb128 mem p).1 ∧
      (readAndVerifyUnsignedLeb128 mem p none).2.1 = (readUnsignedLeb128 mem p).2) := by
  rw [readAndVerifyUnsignedLeb128_none]
  dsimp only
  refine ⟨?_, ?_, ?_, ?_, fun _ => ⟨rfl, rfl⟩⟩
  · by_cases h5 : (readUnsignedLeb128 mem p).2 = p + 5
    · rw [if_pos h5]
      simp [h5]
    · rw [if_neg h5]
      simp [h5]
  · intro h
    rw [if_neg (by omega)]
  · intro h5 hb
    rw [if_pos h5, hb]
    decide
  · intro h5 hb
    rw [if_pos h5]
    rcases hb with hb | hb <;> rw [hb] <;> decide

/-- C17: for every 32-bit unsigned `v` with `n = unsignedLeb128Size v`,
`writeUnsignedLeb128` writes at offset `i`, for `i < n - 1`, the byte
`((v >> 7i) & 0x7F) | 0x80`, and at offset `n - 1` the byte `v >> 7(n-1)`, which
is below `0x80`. -/
theorem written_bytes (mem : Mem) (p v : Nat) (hv : v < 2 ^ 32) :
    (∀ i, i + 1 < unsignedLeb128Size v →
      ((writeUnsignedLeb128 mem p v).1 (p + i)).val = ((v >>> (7 * i)) &&& 0x7F) ||| 0x80) ∧
    ((writeUnsignedLeb128 mem p v).1 (p + (unsignedLeb128Size v - 1))).val
      = v >>> (7 * (unsignedLeb128Size v - 1)) ∧
    v >>> (7 * (unsignedLeb128Size v - 1)) < 0x80 := by
  have hpos := unsignedLeb128Size_pos v
  have hsmall : v / 2 ^ (7 * (unsignedLeb128Size v - 1)) < 128 := by
    rcases unsignedLeb128Size_cases hv with ⟨hn, hr⟩ | ⟨hn, hr⟩ | ⟨hn, hr⟩ | ⟨hn, hr⟩ | ⟨hn, hr⟩
    all_goals rw [hn]
    all_goals norm_num
    all_goals omega
  refine ⟨?_, ?_, ?_⟩
  · intro i hi
    rw [writeUnsignedLeb128_fst, if_pos (by omega), Nat.add_sub_cancel_left, toU1_val,
      and_0x7f_lor_0x80, Nat.shiftRight_eq_div_pow]
    unfold encodedByte
    rw [if_neg (by omega)]
    exact Nat.mod_eq_of_lt (by omega)
  · rw [writeUnsignedLeb128_fst, if_pos (by omega), Nat.add_sub_cancel_left, toU1_val,
      Nat.shiftRight_eq_div_pow]
    unfold encodedByte
    rw [if_pos (by omega)]
    exact Nat.mod_eq_of_lt (by omega)
  · rw [Nat.shiftRight_eq_div_pow]
    exact hsmall

/-- Witness for C17: the value 300 written at address 0. -/
theorem written_bytes_witness :
    (∀ i, i + 1 < unsignedLeb128Size 300 →
      ((writeUnsignedLeb128 (fun _ => 0) 0 300).1 (0 + i)).val
        = ((300 >>> (7 * i)) &&& 0x7F) ||| 0x80) ∧
    ((writeUnsignedLeb128 (fun _ => 0) 0 300).1 (0 + (unsignedLeb128Size 300 - 1))).val
      = 300 >>> (7 * (unsignedLeb128Size 300 - 1)) ∧
    300 >>> (7 * (unsignedLeb128Size 300 - 1)) < 0x80 :=
  written_bytes (fun _ => 0) 0 300 (by norm_num)

/-- C18 (fifth-byte tolerance): when the first four bytes all have the high bit
set, both decoders consume exactly five bytes and, whatever the fifth byte
`b4`, return the same value as on the input whose fifth byte is `b4 & 0x0F`. -/
theorem fifth_byte_tolerance (mem : Mem) (p : Nat)
    (hhigh : ∀ i, i < 4 → byteAt mem p i &&& 0x80 = 0x80) :
    (readUnsignedLeb128 mem p).2 = p + 5 ∧
    (readSignedLeb128 mem p).2 = p + 5 ∧
    readUnsignedLeb128 (store mem (p + 4) (toU1 (byteAt mem p 4 &&& 0x0F))) p
      = readUnsignedLeb128 mem p ∧
    readSignedLeb128 (store mem (p + 4) (toU1 (byteAt mem p 4 &&& 0x0F))) p
      = readSignedLeb128 mem p := by
  have hge : ∀ i, i < 4 → ¬ byteAt mem p i < 128 := by
    intro i hi hlt
    have h := hhigh i hi
    rw [and_0x80 (byteAt_lt mem p i), if_pos hlt] at h
    omega
  have hsame : ∀ i, i < 4 →
      byteAt (store mem (p + 4) (toU1 (byteAt mem p 4 &&& 0x0F))) p i = byteAt mem p i := by
    intro i hi
    unfold byteAt store
    rw [if_neg (by omega)]
  have hfifth : byteAt (store mem (p + 4) (toU1 (byteAt mem p 4 &&& 0x0F))) p 4
      = byteAt mem p 4 % 16 := by
    have hb4 := byteAt_lt mem p 4
    unfold byteAt store at *
    rw [if_pos rfl, toU1_val, and_0x0f]
    omega
  rw [readUnsignedLeb128_eq mem p, readSignedLeb128_eq mem p, readUnsignedLeb128_eq,
    readSignedLeb128_eq, hsame 0 (by omega), hsame 1 (by omega), hsame 2 (by omega),
    hsame 3 (by omega), hfifth]
  simp only [if_neg (hge 0 (by omega)), if_neg (hge 1 (by omega)), if_neg (hge 2 (by omega)),
    if_neg (hge 3 (by omega)), Nat.mod_mod, and_self]

/-- Witness for C18: `0xFF 0xFF 0xFF 0xFF 0xFF` decodes like
`0xFF 0xFF 0xFF 0xFF 0x0F`. -/
theorem fifth_byte_tolerance_witness :
    (readUnsignedLeb128 (fun _ => 0xFF) 0).2 = 0 + 5 ∧
    (readSignedLeb128 (fun _ => 0xFF) 0).2 = 0 + 5 ∧
    readUnsignedLeb128
        (store (fun _ => 0xFF) (0 + 4) (toU1 (byteAt (fun _ => 0xFF) 0 4 &&& 0x0F))) 0
      = readUnsignedLeb128 (fun _ => 0xFF) 0 ∧
    readSignedLeb128
        (store (fun _ => 0xFF) (0 + 4) (toU1 (byteAt (fun _ => 0xFF) 0 4 &&& 0x0F))) 0
      = readSignedLeb128 (fun _ => 0xFF) 0 :=
  fifth_byte_tolerance (fun _ => 0xFF) 0
    (fun _ _ => by show (255 : Nat) &&& 0x80 = 0x80; decide)

/-- C19 (write frame): for every buffer, cursor and 32-bit unsigned `v`,
`writeUnsignedLeb128` returns the cursor advanced by `unsignedLeb128Size v` and
leaves unchanged every byte before the cursor and every byte at or after the
returned cursor. -/
theorem write_frame (mem : Mem) (p v : Nat) (_hv : v < 2 ^ 32) :
    (writeUnsignedLeb128 mem p v).2 = p + unsignedLeb128Size v ∧
    (∀ a, (a < p ∨ (writeUnsignedLeb128 mem p v).2 ≤ a) →
      (writeUnsignedLeb128 mem p v).1 a = mem a) := by
  refine ⟨writeUnsignedLeb128_snd mem p v, ?_⟩
  intro a ha
  rw [writeUnsignedLeb128_snd] at ha
  rw [writeUnsignedLeb128_fst, if_neg (by omega)]

/-- Witness for C19: the value 300 written at address 7 of a buffer of
`0xAA` bytes. -/
theorem write_frame_witness :
    (writeUnsignedLeb128 (fun _ => 0xAA) 7 300).2 = 7 + unsignedLeb128Size 300 ∧
    (∀ a, (a < 7 ∨ (writeUnsignedLeb128 (fun _ => 0xAA) 7 300).2 ≤ a) →
      (writeUnsignedLeb128 (fun _ => 0xAA) 7 300).1 a = (fun _ => 0xAA : Mem) a) :=
  write_frame (fun _ => 0xAA) 7 300 (by norm_num)

/-- C20: on every input the signed and the unsigned decoder consume the same
number `N` of bytes; their results are congruent modulo `2^(7N)` when `N ≤ 4`
and are the same 32-bit pattern when `N = 5`. -/
theorem decoders_agree (mem : Mem) (p : Nat) :
    (readSignedLeb128 mem p).2 = (readUnsignedLeb128 mem p).2 ∧
    ((readUnsignedLeb128 mem p).2 - p ≤ 4 →
      (readSignedLeb128 mem p).1 % 2 ^ (7 * ((readUnsignedLeb128 mem p).2 - p))
        = (readUnsignedLeb128 mem p).1 % 2 ^ (7 * ((readUnsignedLeb128 mem p).2 - p))) ∧
    ((readUnsignedLeb128 mem p).2 - p = 5 →
      (readSignedLeb128 mem p).1 = (readUnsignedLeb128 mem p).1 ∧
      toU32 (readSignedLeb128 mem p).1 = toU32 (readUnsignedLeb128 mem p).1) := by
  have hb0 := byteAt_lt mem p 0
  have hb1 := byteAt_lt mem p 1
  have hb2 := byteAt_lt mem p 2
  have hb3 := byteAt_lt mem p 3
  rw [readUnsignedLeb128_eq, readSignedLeb128_eq]
  split_ifs with h0 h1 h2 h3
  · simp only [Nat.add_sub_cancel_left]
    rw [sar32_shl32 _ 25 (by omega) (by omega)]
    refine ⟨trivial, fun _ => ?_, fun h => by omega⟩
    unfold signExtend
    norm_num
    split_ifs <;> omega
  · simp only [Nat.add_sub_cancel_left]
    rw [sar32_shl32 _ 18 (by omega) (by omega)]
    refine ⟨trivial, fun _ => ?_, fun h => by omega⟩
    unfold signExtend
    norm_num
    split_ifs <;> omega
  · simp only [Nat.add_sub_cancel_left]
    rw [sar32_shl32 _ 11 (by omega) (by omega)]
    refine ⟨trivial, fun _ => ?_, fun h => by omega⟩
    unfold signExtend
    norm_num
    split_ifs <;> omega
  · simp only [Nat.add_sub_cancel_left]
    rw [sar32_shl32 _ 4 (by omega) (by omega)]
    refine ⟨trivial, fun _ => ?_, fun h => by omega⟩
    unfold signExtend
    norm_num
    split_ifs <;> omega
  · exact ⟨rfl, fun h => by simp only [Nat.add_sub_cancel_left] at h; omega,
      fun _ => ⟨rfl, rfl⟩⟩

end Leb128
